import Mathlib

/-!
Verification of the MinGRU core (`src/mingru/functional.py`, `src/mingru/modules.py`)
against its specification.

The embedding works over real arithmetic (`ℝ`): torch tensors are modelled
elementwise, as functions from (time, channel[, spatial]) indices to reals.
All recurrence/scan operations of the source act independently per batch,
channel and spatial position, so one scalar channel fully captures them; the
time axis is modelled by ℕ indices and output sequences by `List`s.

`src/mingru/scan.py` (`parallel_scan_log`) is imported by the source but is
not part of the source tree here; it is modelled from the specification
(spec §4.3) and marked as such below.
-/

open scoped BigOperators

namespace MinGru

/-- Model of `torch.sigmoid`: `sigmoid x = 1 / (1 + exp (-x))`. -/
noncomputable def sigmoid (x : ℝ) : ℝ := 1 / (1 + Real.exp (-x))

/-- Model of `F.softplus`: `softplus x = log (1 + exp x)`. -/
noncomputable def softplus (x : ℝ) : ℝ := Real.log (1 + Real.exp x)

/-- Embedding of `functional.g` (src/mingru/functional.py, lines 16-22): on the mask
`x >= 0` the output is `x + 0.5`, on the complement it is `sigmoid x`. -/
noncomputable def g (x : ℝ) : ℝ := if 0 ≤ x then x + 0.5 else sigmoid x

/-- Embedding of `functional.log_g` (src/mingru/functional.py, lines 25-31): on the mask
`x >= 0` the output is `log (x + 0.5)`, on the complement `-softplus (-x)`. -/
noncomputable def log_g (x : ℝ) : ℝ :=
  if 0 ≤ x then Real.log (x + 0.5) else -softplus (-x)

/-- One output row of `F.linear(x, weight, bias)`: dot product of row `i` of
`weight` with `x` plus `bias i`.  `inD` is the trailing (channel) dimension
of `x`. -/
noncomputable def linRow (w : ℕ → ℕ → ℝ) (b : ℕ → ℝ) (inD : ℕ)
    (x : ℕ → ℝ) (i : ℕ) : ℝ :=
  (∑ j in Finset.range inD, w i j * x j) + b i

/-- Inclusive prefix sums of the log-coefficients: with the leading zero slot
of spec §4.3 step 1, the cumulative sum `A*` at time `t` is the sum of the
first `t` coefficients. -/
noncomputable def cumA (lc : ℕ → ℝ) (t : ℕ) : ℝ := ∑ k in Finset.range t, lc k

/-- Step 3 of the scan: `D = B - A*` elementwise. -/
noncomputable def scanD (lc lv : ℕ → ℝ) (t : ℕ) : ℝ := lv t - cumA lc t

/-- Running maximum over the time axis (the max-shift accumulator of spec
§4.3 step 4). -/
noncomputable def runMax (f : ℕ → ℝ) : ℕ → ℝ
  | 0 => f 0
  | t + 1 => max (runMax f t) (f (t + 1))

/-- Modelled from the spec: `parallel_scan_log` lives in `src/mingru/scan.py`,
which is absent from the source tree; this follows spec §4.3 steps 1-6
verbatim.  Inputs: `lc k` is the log-coefficient `a_{k+1}` (k = 0..S-1) and
`lv k` is the log-value `b_k` (k = 0..S, with `lv 0 = log h_0`).  Output at
time `t`: `A*` is the inclusive prefix sum of `[0, a_1, ...]`, `D = B - A*`,
`C` is the running-max-shifted log-cumsum-exp of `D`, and the result is
`exp (A* + C)`. -/
noncomputable def parallel_scan_log (lc lv : ℕ → ℝ) (t : ℕ) : ℝ :=
  Real.exp (cumA lc t +
    (runMax (scanD lc lv) t +
      Real.log (∑ k in Finset.range (t + 1),
        Real.exp (scanD lc lv k - runMax (scanD lc lv) t))))

/-- Embedding of `functional.mingru_sequential` (lines 34-54), one output channel `c`:
`gate`/`hidden` are the two chunks of the combined linear projection
(`hD` output channels each), `z = sigmoid gate`, and the next hidden state
is `(1 - z) * h + z * g hidden`. -/
noncomputable def mingru_sequential (w : ℕ → ℕ → ℝ) (b : ℕ → ℝ) (inD hD : ℕ)
    (x h : ℕ → ℝ) (c : ℕ) : ℝ :=
  (1 - sigmoid (linRow w b inD x c)) * h c +
    sigmoid (linRow w b inD x c) * g (linRow w b inD x (hD + c))

/-- Embedding of `functional.mingru_parallel` (lines 57-83), one output element `(t, c)`
(`t` is 0-based over the S outputs): the combined projection is chunked into
gate/hidden per timestep, `log_z = -softplus (-gate)`,
`log_coeffs = -softplus gate`, the values are `log h_0` prepended to
`log_z + log_g hidden`, and the scan output is taken at slot `t + 1`
(the returned tail `h[:, 1:]`). -/
noncomputable def mingru_parallel (w : ℕ → ℕ → ℝ) (b : ℕ → ℝ) (inD hD : ℕ)
    (x : ℕ → ℕ → ℝ) (h : ℕ → ℝ) (t c : ℕ) : ℝ :=
  parallel_scan_log
    (fun s => -softplus (linRow w b inD (x s) c))
    (fun s => match s with
      | 0 => Real.log (h c)
      | s' + 1 =>
          -softplus (-linRow w b inD (x s') c) +
            log_g (linRow w b inD (x s') (hD + c)))
    (t + 1)

/-- Embedding of `functional.mingru` (lines 86-107): dispatch on the sequence length `S`;
`S == 1` takes the sequential branch, anything else the parallel branch.
The output is the time-indexed list of hidden-state channel vectors. -/
noncomputable def mingru (w : ℕ → ℕ → ℝ) (b : ℕ → ℝ) (inD hD S : ℕ)
    (x : ℕ → ℕ → ℝ) (h : ℕ → ℝ) : List (ℕ → ℝ) :=
  if S = 1 then [fun c => mingru_sequential w b inD hD (x 0) h c]
  else (List.range S).map (fun t => fun c => mingru_parallel w b inD hD x h t c)

/-- Reference iteration: apply `mingru_sequential` `t` times from `h0`
(the ground truth of spec §4.2 that the scan must match). -/
noncomputable def mingru_iter (w : ℕ → ℕ → ℝ) (b : ℕ → ℝ) (inD hD : ℕ)
    (x : ℕ → ℕ → ℝ) (h0 : ℕ → ℝ) : ℕ → ℕ → ℝ
  | 0 => h0
  | t + 1 => fun c =>
      mingru_sequential w b inD hD (x t) (mingru_iter w b inD hD x h0 t) c

lemma one_add_exp_pos (x : ℝ) : 0 < 1 + Real.exp x := by positivity

lemma sigmoid_pos (x : ℝ) : 0 < sigmoid x := by
  unfold sigmoid
  positivity

lemma sigmoid_lt_one (x : ℝ) : sigmoid x < 1 := by
  unfold sigmoid
  rw [div_lt_one (one_add_exp_pos (-x))]
  linarith [Real.exp_pos (-x)]

lemma g_pos (x : ℝ) : 0 < g x := by
  unfold g
  split
  · linarith
  · exact sigmoid_pos x

lemma exp_neg_softplus_neg (x : ℝ) : Real.exp (-softplus (-x)) = sigmoid x := by
  unfold softplus sigmoid
  rw [Real.exp_neg, Real.exp_log (one_add_exp_pos (-x)), one_div]

lemma exp_neg_softplus (x : ℝ) : Real.exp (-softplus x) = 1 - sigmoid x := by
  unfold softplus sigmoid
  rw [Real.exp_neg, Real.exp_log (one_add_exp_pos x)]
  have h1 : (1 : ℝ) + Real.exp x ≠ 0 := ne_of_gt (one_add_exp_pos x)
  have h2 : (1 : ℝ) + Real.exp (-x) ≠ 0 := ne_of_gt (one_add_exp_pos (-x))
  have hx : Real.exp (-x) * Real.exp x = 1 := by
    rw [← Real.exp_add]; simp
  field_simp
  nlinarith [hx]

lemma exp_log_g (x : ℝ) : Real.exp (log_g x) = g x := by
  unfold log_g g
  split
  · next h => rw [Real.exp_log (by linarith)]
  · exact exp_neg_softplus_neg x

/-- Over real arithmetic the running-max shift cancels exactly: the scan
output is the closed form `exp (A*_t) * Σ_{k ≤ t} exp (b_k - A*_k)` of spec
§4.3. -/
lemma parallel_scan_log_closed (lc lv : ℕ → ℝ) (t : ℕ) :
    parallel_scan_log lc lv t =
      Real.exp (cumA lc t) *
        ∑ k in Finset.range (t + 1), Real.exp (lv k - cumA lc k) := by
  unfold parallel_scan_log
  have hpos : 0 < ∑ k in Finset.range (t + 1),
      Real.exp (scanD lc lv k - runMax (scanD lc lv) t) := by
    apply Finset.sum_pos (fun k _ => Real.exp_pos _)
    exact Finset.nonempty_range_iff.mpr (Nat.succ_ne_zero t)
  rw [Real.exp_add, Real.exp_add, Real.exp_log hpos, Finset.mul_sum,
    Finset.mul_sum, Finset.mul_sum]
  apply Finset.sum_congr rfl
  intro k _
  rw [← Real.exp_add, ← Real.exp_add, ← Real.exp_add]
  congr 1
  unfold scanD
  ring

lemma parallel_scan_log_zero (lc lv : ℕ → ℝ) :
    parallel_scan_log lc lv 0 = Real.exp (lv 0) := by
  rw [parallel_scan_log_closed]
  simp [cumA]

/-- The scan satisfies the linear recurrence
`h_{t+1} = exp (a_{t+1}) * h_t + exp (b_{t+1})` of spec §4.3. -/
lemma parallel_scan_log_succ (lc lv : ℕ → ℝ) (t : ℕ) :
    parallel_scan_log lc lv (t + 1) =
      Real.exp (lc t) * parallel_scan_log lc lv t + Real.exp (lv (t + 1)) := by
  rw [parallel_scan_log_closed, parallel_scan_log_closed]
  have hA : cumA lc (t + 1) = cumA lc t + lc t := Finset.sum_range_succ lc t
  rw [Finset.sum_range_succ _ (t + 1), mul_add, hA]
  congr 1
  · rw [Real.exp_add]; ring
  · rw [← Real.exp_add]
    congr 1
    ring


/-- The full scan trajectory (including the `h_0` slot) coincides with the
sequential iterates when the initial state channel is positive. -/
lemma scan_traj_eq_iter (w : ℕ → ℕ → ℝ) (b : ℕ → ℝ) (inD hD : ℕ)
    (x : ℕ → ℕ → ℝ) (h0 : ℕ → ℝ) (c : ℕ) (hpos : 0 < h0 c) (t : ℕ) :
    parallel_scan_log
      (fun s => -softplus (linRow w b inD (x s) c))
      (fun s => match s with
        | 0 => Real.log (h0 c)
        | s' + 1 =>
            -softplus (-linRow w b inD (x s') c) +
              log_g (linRow w b inD (x s') (hD + c)))
      t = mingru_iter w b inD hD x h0 t c := by
  induction t with
  | zero =>
      rw [parallel_scan_log_zero]
      show Real.exp (Real.log (h0 c)) = mingru_iter w b inD hD x h0 0 c
      rw [Real.exp_log hpos]
      rfl
  | succ t ih =>
      rw [parallel_scan_log_succ, ih]
      show Real.exp (-softplus (linRow w b inD (x t) c)) *
          mingru_iter w b inD hD x h0 t c +
          Real.exp (-softplus (-linRow w b inD (x t) c) +
            log_g (linRow w b inD (x t) (hD + c))) =
          mingru_iter w b inD hD x h0 (t + 1) c
      rw [exp_neg_softplus, Real.exp_add, exp_neg_softplus_neg, exp_log_g]
      rfl

/-- The tail returned by `mingru_parallel` matches the sequential iterates. -/
lemma mingru_parallel_eq_iter (w : ℕ → ℕ → ℝ) (b : ℕ → ℝ) (inD hD : ℕ)
    (x : ℕ → ℕ → ℝ) (h0 : ℕ → ℝ) (c : ℕ) (hpos : 0 < h0 c) (t : ℕ) :
    mingru_parallel w b inD hD x h0 t c =
      mingru_iter w b inD hD x h0 (t + 1) c := by
  unfold mingru_parallel
  exact scan_traj_eq_iter w b inD hD x h0 c hpos (t + 1)

lemma parallel_scan_log_pos (lc lv : ℕ → ℝ) (t : ℕ) :
    0 < parallel_scan_log lc lv t := Real.exp_pos _

lemma mingru_sequential_pos (w : ℕ → ℕ → ℝ) (b : ℕ → ℝ) (inD hD : ℕ)
    (x h : ℕ → ℝ) (c : ℕ) (hc : 0 < h c) :
    0 < mingru_sequential w b inD hD x h c := by
  unfold mingru_sequential
  have hz1 := sigmoid_pos (linRow w b inD x c)
  have hz2 := sigmoid_lt_one (linRow w b inD x c)
  have hg := g_pos (linRow w b inD x (hD + c))
  nlinarith

lemma mingru_iter_pos (w : ℕ → ℕ → ℝ) (b : ℕ → ℝ) (inD hD : ℕ)
    (x : ℕ → ℕ → ℝ) (h0 : ℕ → ℝ) (hpos : ∀ c, 0 < h0 c) (t c : ℕ) :
    0 < mingru_iter w b inD hD x h0 t c := by
  induction t generalizing c with
  | zero => exact hpos c
  | succ t ih => exact mingru_sequential_pos w b inD hD (x t) _ c (ih c)

/-- C1: for every input sequence, weights and bias, and strictly positive
initial hidden state, the trajectory returned by `mingru_parallel` (log-space
scan fed with `log(1-sigmoid(gate))` coefficients, initial slot dropped)
equals, over real arithmetic, the result of applying `mingru_sequential`
repeatedly from `h0`: output slot `t` is the `(t+1)`-st sequential iterate. -/
theorem mingru_parallel_matches_sequential (w : ℕ → ℕ → ℝ) (b : ℕ → ℝ)
    (inD hD S : ℕ) (hS : 1 ≤ S) (x : ℕ → ℕ → ℝ) (h0 : ℕ → ℝ)
    (hpos : ∀ c, 0 < h0 c) :
    ∀ t < S, ∀ c, mingru_parallel w b inD hD x h0 t c =
      mingru_iter w b inD hD x h0 (t + 1) c := by
  intro t _ c
  exact mingru_parallel_eq_iter w b inD hD x h0 c (hpos c) t

theorem mingru_parallel_matches_sequential_witness :
    1 ≤ 1 ∧
      mingru_parallel (fun _ _ => 0) (fun _ => 0) 1 1 (fun _ _ => 0)
          (fun _ => 1) 0 0 =
        mingru_iter (fun _ _ => 0) (fun _ => 0) 1 1 (fun _ _ => 0)
          (fun _ => 1) 1 0 :=
  ⟨le_refl 1,
    mingru_parallel_matches_sequential (fun _ _ => 0) (fun _ => 0) 1 1 1
      (le_refl 1) (fun _ _ => 0) (fun _ => 1) (fun _ => one_pos) 0
      Nat.zero_lt_one 0⟩

/-- C2: for any gate/candidate logits (any weights, bias and inputs) and any
initial hidden state with all channels strictly positive, every element of
the hidden-state sequence returned by `mingru` (either dispatch branch) is
strictly positive, and positivity holds at every timestep of the sequential
iteration.  In this real-arithmetic model every value is a real number, so
no NaN/Inf can arise. -/
theorem mingru_output_pos (w : ℕ → ℕ → ℝ) (b : ℕ → ℝ) (inD hD S : ℕ)
    (x : ℕ → ℕ → ℝ) (h0 : ℕ → ℝ) (hpos : ∀ c, 0 < h0 c) :
    (∀ hv ∈ mingru w b inD hD S x h0, ∀ c, 0 < hv c) ∧
      (∀ t c, 0 < mingru_iter w b inD hD x h0 t c) := by
  constructor
  · intro hv hmem c
    unfold mingru at hmem
    split at hmem
    · rw [List.mem_singleton] at hmem
      subst hmem
      exact mingru_sequential_pos w b inD hD (x 0) h0 c (hpos c)
    · rw [List.mem_map] at hmem
      obtain ⟨t, _, rfl⟩ := hmem
      exact parallel_scan_log_pos _ _ _
  · exact mingru_iter_pos w b inD hD x h0 hpos

theorem mingru_output_pos_witness :
    (∀ c : ℕ, (0 : ℝ) < (fun _ => (1 : ℝ)) c) ∧
      ((∀ hv ∈ mingru (fun _ _ => 0) (fun i => if i = 0 then 50 else -50) 1 1 2
          (fun _ _ => 0) (fun _ => 1), ∀ c, 0 < hv c) ∧
        (∀ t c, 0 < mingru_iter (fun _ _ => 0)
          (fun i => if i = 0 then 50 else -50) 1 1 (fun _ _ => 0)
          (fun _ => 1) t c)) :=
  ⟨fun _ => one_pos,
    mingru_output_pos (fun _ _ => 0) (fun i => if i = 0 then 50 else -50) 1 1 2
      (fun _ _ => 0) (fun _ => 1) (fun _ => one_pos)⟩

lemma continuous_sigmoid : Continuous sigmoid := by
  unfold sigmoid
  exact continuous_const.div
    (continuous_const.add (Real.continuous_exp.comp continuous_neg))
    (fun x => ne_of_gt (one_add_exp_pos (-x)))

lemma sigmoid_zero : sigmoid 0 = 0.5 := by
  unfold sigmoid
  norm_num [Real.exp_zero]

/-- C3: `g` returns `x + 0.5` for `x ≥ 0` and `sigmoid x` for `x < 0`, its
range is contained in `(0, ∞)`, and it is continuous at `0`, where both
branches give the value `0.5`. -/
theorem g_spec :
    (∀ x : ℝ, 0 ≤ x → g x = x + 0.5) ∧
      (∀ x : ℝ, x < 0 → g x = sigmoid x) ∧
      (∀ x : ℝ, 0 < g x) ∧
      g 0 = 0.5 ∧ sigmoid 0 = 0.5 ∧ ContinuousAt g 0 := by
  refine ⟨fun x hx => if_pos hx, fun x hx => if_neg (not_le.mpr hx), g_pos,
    ?_, sigmoid_zero, ?_⟩
  · unfold g
    rw [if_pos le_rfl]
    norm_num
  · have hg0 : g 0 = sigmoid 0 := by
      unfold g
      rw [if_pos le_rfl, sigmoid_zero]
      norm_num
    have h1 : ContinuousWithinAt g (Set.Iic 0) 0 := by
      apply (continuous_sigmoid.continuousWithinAt).congr
      · intro y hy
        rcases lt_or_eq_of_le (Set.mem_Iic.mp hy) with h | h
        · exact if_neg (not_le.mpr h)
        · subst h; exact hg0
      · exact hg0
    have h2 : ContinuousWithinAt g (Set.Ici 0) 0 := by
      apply ((continuous_id.add continuous_const).continuousWithinAt).congr
      · intro y hy
        exact if_pos (Set.mem_Ici.mp hy)
      · exact if_pos le_rfl
    have h3 := h1.union h2
    rwa [Set.Iic_union_Ici, continuousWithinAt_univ] at h3

theorem g_spec_witness :
    ((0 : ℝ) ≤ 1 ∧ g 1 = 1 + 0.5) ∧ ((-1 : ℝ) < 0 ∧ g (-1) = sigmoid (-1)) :=
  ⟨⟨by norm_num, g_spec.1 1 (by norm_num)⟩,
    ⟨by norm_num, g_spec.2.1 (-1) (by norm_num)⟩⟩

/-- C4: over real arithmetic, `exp (log_g x) = g x` holds exactly for every
input; both functions are real-valued everywhere (no NaN/Inf arises in this
model). -/
theorem exp_log_g_eq_g : ∀ x : ℝ, Real.exp (log_g x) = g x := exp_log_g

/-- Embedding of `F.conv2d(x, weight, bias, stride=1, padding="same")` at output channel
`o` and spatial position `(i, j)`.  `Cin` is the input channel count,
`(k1, k2)` the kernel size and `(H, W)` the spatial size.  Same padding at
stride 1 pads `(k-1)/2` (floor) on the leading side of each spatial axis;
a padded position reads zero. -/
noncomputable def conv2d_same (w : ℕ → ℕ → ℕ → ℕ → ℝ) (b : ℕ → ℝ)
    (Cin k1 k2 H W : ℕ) (x : ℕ → ℕ → ℕ → ℝ) (o i j : ℕ) : ℝ :=
  (∑ c in Finset.range Cin, ∑ p in Finset.range k1, ∑ q in Finset.range k2,
    w o c p q *
      (if (k1 - 1) / 2 ≤ i + p ∧ i + p - (k1 - 1) / 2 < H ∧
          (k2 - 1) / 2 ≤ j + q ∧ j + q - (k2 - 1) / 2 < W then
        x c (i + p - (k1 - 1) / 2) (j + q - (k2 - 1) / 2)
      else 0)) + b o

/-- Embedding of `functional.conv_mingru_sequential` (lines 110-138), one output element
`(c, i, j)`: the convolution replaces the linear projection, everything else
matches `mingru_sequential`. -/
noncomputable def conv_mingru_sequential (w : ℕ → ℕ → ℕ → ℕ → ℝ) (b : ℕ → ℝ)
    (Cin k1 k2 hD H W : ℕ) (x h : ℕ → ℕ → ℕ → ℝ) (c i j : ℕ) : ℝ :=
  (1 - sigmoid (conv2d_same w b Cin k1 k2 H W x c i j)) * h c i j +
    sigmoid (conv2d_same w b Cin k1 k2 H W x c i j) *
      g (conv2d_same w b Cin k1 k2 H W x (hD + c) i j)

/-- Embedding of `functional.conv_mingru_parallel` (lines 141-182), one output element
`(t, c, i, j)`: the batched convolution replaces the linear projection per
timestep, the log-space scan is identical to `mingru_parallel`. -/
noncomputable def conv_mingru_parallel (w : ℕ → ℕ → ℕ → ℕ → ℝ) (b : ℕ → ℝ)
    (Cin k1 k2 hD H W : ℕ) (x : ℕ → ℕ → ℕ → ℕ → ℝ) (h : ℕ → ℕ → ℕ → ℝ)
    (t c i j : ℕ) : ℝ :=
  parallel_scan_log
    (fun s => -softplus (conv2d_same w b Cin k1 k2 H W (x s) c i j))
    (fun s => match s with
      | 0 => Real.log (h c i j)
      | s' + 1 =>
          -softplus (-conv2d_same w b Cin k1 k2 H W (x s') c i j) +
            log_g (conv2d_same w b Cin k1 k2 H W (x s') (hD + c) i j))
    (t + 1)

/-- Embedding of `functional.conv_mingru` (lines 185-206): same dispatch on `S` as
`mingru`. -/
noncomputable def conv_mingru (w : ℕ → ℕ → ℕ → ℕ → ℝ) (b : ℕ → ℝ)
    (Cin k1 k2 hD H W S : ℕ) (x : ℕ → ℕ → ℕ → ℕ → ℝ) (h : ℕ → ℕ → ℕ → ℝ) :
    List (ℕ → ℕ → ℕ → ℝ) :=
  if S = 1 then
    [fun c i j => conv_mingru_sequential w b Cin k1 k2 hD H W (x 0) h c i j]
  else
    (List.range S).map (fun t => fun c i j =>
      conv_mingru_parallel w b Cin k1 k2 hD H W x h t c i j)

/-- C5: the dispatchers branch on the sequence length: `S = 1` invokes the
sequential step exactly once (so the length-1 output is `mingru_sequential`
applied once to `h0`, i.e. the first sequential iterate), and every `S > 1`
invokes the parallel scan over the whole sequence; the same rule holds for
`conv_mingru`. -/
theorem dispatch_rule :
    (∀ (w : ℕ → ℕ → ℝ) (b : ℕ → ℝ) (inD hD : ℕ) (x : ℕ → ℕ → ℝ)
        (h0 : ℕ → ℝ),
      mingru w b inD hD 1 x h0 =
          [fun c => mingru_sequential w b inD hD (x 0) h0 c] ∧
        mingru w b inD hD 1 x h0 = [fun c => mingru_iter w b inD hD x h0 1 c]) ∧
      (∀ (w : ℕ → ℕ → ℝ) (b : ℕ → ℝ) (inD hD S : ℕ) (x : ℕ → ℕ → ℝ)
          (h0 : ℕ → ℝ), 1 < S →
        mingru w b inD hD S x h0 =
          (List.range S).map (fun t => fun c =>
            mingru_parallel w b inD hD x h0 t c)) ∧
      (∀ (w : ℕ → ℕ → ℕ → ℕ → ℝ) (b : ℕ → ℝ) (Cin k1 k2 hD H W : ℕ)
          (x : ℕ → ℕ → ℕ → ℕ → ℝ) (h0 : ℕ → ℕ → ℕ → ℝ),
        conv_mingru w b Cin k1 k2 hD H W 1 x h0 =
          [fun c i j =>
            conv_mingru_sequential w b Cin k1 k2 hD H W (x 0) h0 c i j]) ∧
      (∀ (w : ℕ → ℕ → ℕ → ℕ → ℝ) (b : ℕ → ℝ) (Cin k1 k2 hD H W S : ℕ)
          (x : ℕ → ℕ → ℕ → ℕ → ℝ) (h0 : ℕ → ℕ → ℕ → ℝ), 1 < S →
        conv_mingru w b Cin k1 k2 hD H W S x h0 =
          (List.range S).map (fun t => fun c i j =>
            conv_mingru_parallel w b Cin k1 k2 hD H W x h0 t c i j)) := by
  refine ⟨fun w b inD hD x h0 => ⟨?_, ?_⟩, fun w b inD hD S x h0 hS => ?_,
    fun w b Cin k1 k2 hD H W x h0 => ?_,
    fun w b Cin k1 k2 hD H W S x h0 hS => ?_⟩
  · unfold mingru
    rw [if_pos rfl]
  · unfold mingru
    rw [if_pos rfl]
    rfl
  · unfold mingru
    rw [if_neg (by omega)]
  · unfold conv_mingru
    rw [if_pos rfl]
  · unfold conv_mingru
    rw [if_neg (by omega)]

theorem dispatch_rule_witness :
    1 < 2 ∧
      mingru (fun _ _ => 0) (fun _ => 0) 1 1 2 (fun _ _ => 0) (fun _ => 1) =
        (List.range 2).map (fun t => fun c =>
          mingru_parallel (fun _ _ => 0) (fun _ => 0) 1 1 (fun _ _ => 0)
            (fun _ => 1) t c) :=
  ⟨one_lt_two,
    dispatch_rule.2.1 (fun _ _ => 0) (fun _ => 0) 1 1 2 (fun _ _ => 0)
      (fun _ => 1) one_lt_two⟩

/-- C6: concrete scenario with one channel (`inD = 0`, bias supplies the
logits): gate logit `0` and candidate logit `1` at every timestep
(`b 0 = 0` is the gate row, `b 1 = 1` the candidate row), `h0 = g 0 = 0.5`;
the parallel evaluation returns the trajectory `[1, 1.25, 1.375]`. -/
theorem concrete_scenario :
    mingru_parallel (fun _ _ => 0) (fun i => if i = 0 then 0 else 1) 0 1
        (fun _ _ => 0) (fun _ => 0.5) 0 0 = 1 ∧
      mingru_parallel (fun _ _ => 0) (fun i => if i = 0 then 0 else 1) 0 1
        (fun _ _ => 0) (fun _ => 0.5) 1 0 = 1.25 ∧
      mingru_parallel (fun _ _ => 0) (fun i => if i = 0 then 0 else 1) 0 1
        (fun _ _ => 0) (fun _ => 0.5) 2 0 = 1.375 := by
  have hpos : (0 : ℝ) < (fun _ : ℕ => (0.5 : ℝ)) 0 := by norm_num
  have heq := fun t => mingru_parallel_eq_iter (fun _ _ => 0)
    (fun i => if i = 0 then 0 else 1) 0 1 (fun _ _ => 0) (fun _ => 0.5) 0
    hpos t
  have hstep : ∀ h : ℕ → ℝ,
      mingru_sequential (fun _ _ => 0) (fun i => if i = 0 then 0 else 1) 0 1
        (fun _ => 0) h 0 = 0.5 * h 0 + 0.75 := by
    intro h
    unfold mingru_sequential linRow
    rw [Finset.sum_range_zero]
    norm_num [sigmoid_zero, g]
  have h0v : mingru_iter (fun _ _ => 0) (fun i => if i = 0 then 0 else 1) 0 1
      (fun _ _ => 0) (fun _ => 0.5) 0 0 = 0.5 := rfl
  have h1 : mingru_iter (fun _ _ => 0) (fun i => if i = 0 then 0 else 1) 0 1
      (fun _ _ => 0) (fun _ => 0.5) 1 0 = 1 := by
    show mingru_sequential (fun _ _ => 0) (fun i => if i = 0 then 0 else 1) 0 1
      (fun _ => 0) (mingru_iter (fun _ _ => 0)
        (fun i => if i = 0 then 0 else 1) 0 1 (fun _ _ => 0)
        (fun _ => 0.5) 0) 0 = 1
    rw [hstep, h0v]
    norm_num
  have h2 : mingru_iter (fun _ _ => 0) (fun i => if i = 0 then 0 else 1) 0 1
      (fun _ _ => 0) (fun _ => 0.5) 2 0 = 1.25 := by
    show mingru_sequential (fun _ _ => 0) (fun i => if i = 0 then 0 else 1) 0 1
      (fun _ => 0) (mingru_iter (fun _ _ => 0)
        (fun i => if i = 0 then 0 else 1) 0 1 (fun _ _ => 0)
        (fun _ => 0.5) 1) 0 = 1.25
    rw [hstep, h1]
    norm_num
  have h3 : mingru_iter (fun _ _ => 0) (fun i => if i = 0 then 0 else 1) 0 1
      (fun _ _ => 0) (fun _ => 0.5) 3 0 = 1.375 := by
    show mingru_sequential (fun _ _ => 0) (fun i => if i = 0 then 0 else 1) 0 1
      (fun _ => 0) (mingru_iter (fun _ _ => 0)
        (fun i => if i = 0 then 0 else 1) 0 1 (fun _ _ => 0)
        (fun _ => 0.5) 2) 0 = 1.375
    rw [hstep, h2]
    norm_num
  exact ⟨by rw [heq 0]; exact h1, by rw [heq 1]; exact h2,
    by rw [heq 2]; exact h3⟩

/-- C7 counterexample: on a zero-length time axis the entry points do not
fail — at a concrete input, `mingru` and `conv_mingru` simply return the
empty hidden-state sequence (the source has no sequence-length check: `S = 0`
falls into the parallel branch and the returned tail is empty). -/
theorem zero_length_no_error :
    mingru (fun _ _ => 0) (fun _ => 0) 1 1 0 (fun _ _ => 0) (fun _ => 1) =
        [] ∧
      conv_mingru (fun _ _ _ _ => 0) (fun _ => 0) 1 1 1 1 1 1 0
        (fun _ _ _ _ => 0) (fun _ _ _ => 1) = [] := by
  constructor
  · unfold mingru
    rw [if_neg (by decide)]
    rfl
  · unfold conv_mingru
    rw [if_neg (by decide)]
    rfl

/-- C7 amended: for every input with `S = 0`, `mingru` and `conv_mingru`
raise no error; both dispatch to the parallel branch and return the empty
hidden-state sequence. -/
theorem zero_length_returns_empty :
    (∀ (w : ℕ → ℕ → ℝ) (b : ℕ → ℝ) (inD hD : ℕ) (x : ℕ → ℕ → ℝ)
        (h0 : ℕ → ℝ), mingru w b inD hD 0 x h0 = []) ∧
      ∀ (w : ℕ → ℕ → ℕ → ℕ → ℝ) (b : ℕ → ℝ) (Cin k1 k2 hD H W : ℕ)
        (x : ℕ → ℕ → ℕ → ℕ → ℝ) (h0 : ℕ → ℕ → ℕ → ℝ),
        conv_mingru w b Cin k1 k2 hD H W 0 x h0 = [] := by
  constructor
  · intro w b inD hD x h0
    unfold mingru
    rw [if_neg (by decide)]
    rfl
  · intro w b Cin k1 k2 hD H W x h0
    unfold conv_mingru
    rw [if_neg (by decide)]
    rfl

/-- C8 counterexample: an initial hidden state with a non-positive element
does not make the evaluation fail fast — at a concrete input with
`h0 = -1` everywhere, `mingru` still returns a full-length (2-element)
hidden-state sequence (the source takes `h.log()` with no validation and
the scan proceeds silently). -/
theorem nonpositive_h0_no_error :
    ((fun _ : ℕ => (-1 : ℝ)) 0 ≤ 0) ∧
      (mingru (fun _ _ => 0) (fun _ => 0) 1 1 2 (fun _ _ => 0)
          (fun _ => -1)).length = 2 := by
  constructor
  · norm_num
  · unfold mingru
    rw [if_neg (by decide)]
    rfl

/-- C8 amended: there is no fail-fast validation of the initial hidden
state: even when `h0` has a non-positive element, `mingru` returns a
hidden-state sequence of full length `S` (the logarithm of that element is
fed to the scan silently). -/
theorem nonpositive_h0_no_failfast (w : ℕ → ℕ → ℝ) (b : ℕ → ℝ)
    (inD hD S : ℕ) (x : ℕ → ℕ → ℝ) (h0 : ℕ → ℝ) (hneg : ∃ c, h0 c ≤ 0) :
    (mingru w b inD hD S x h0).length = S := by
  unfold mingru
  split
  · next h => rw [h, List.length_singleton]
  · rw [List.length_map, List.length_range]

theorem nonpositive_h0_no_failfast_witness :
    (∃ c : ℕ, (fun _ : ℕ => (-1 : ℝ)) c ≤ 0) ∧
      (mingru (fun _ _ => 0) (fun _ => 0) 1 1 2 (fun _ _ => 0)
          (fun _ => -1)).length = 2 :=
  ⟨⟨0, by norm_num⟩,
    nonpositive_h0_no_failfast (fun _ _ => 0) (fun _ => 0) 1 1 2
      (fun _ _ => 0) (fun _ => -1) ⟨0, by norm_num⟩⟩

/-- A same-padded convolution over a `1 × 1` spatial grid reads exactly the
centre tap of the kernel: it is the linear map whose weight matrix is the
kernel evaluated at `((k1-1)/2, (k2-1)/2)`. -/
lemma conv2d_same_1x1 (w : ℕ → ℕ → ℕ → ℕ → ℝ) (b : ℕ → ℝ) (Cin k1 k2 : ℕ)
    (hk1 : 0 < k1) (hk2 : 0 < k2) (x : ℕ → ℕ → ℕ → ℝ) (o : ℕ) :
    conv2d_same w b Cin k1 k2 1 1 x o 0 0 =
      linRow (fun a c => w a c ((k1 - 1) / 2) ((k2 - 1) / 2)) b Cin
        (fun c => x c 0 0) o := by
  unfold conv2d_same linRow
  congr 1
  apply Finset.sum_congr rfl
  intro c _
  rw [Finset.sum_eq_single ((k1 - 1) / 2)]
  · rw [Finset.sum_eq_single ((k2 - 1) / 2)]
    · rw [if_pos (by omega)]
      congr 2 <;> omega
    · intro q _ hq
      rw [if_neg (by omega), mul_zero]
    · intro hmem
      exact absurd (Finset.mem_range.mpr (by omega)) hmem
  · intro p _ hp
    apply Finset.sum_eq_zero
    intro q _
    rw [if_neg (by omega), mul_zero]
  · intro hmem
    exact absurd (Finset.mem_range.mpr (by omega)) hmem

lemma conv_mingru_sequential_1x1 (w : ℕ → ℕ → ℕ → ℕ → ℝ) (b : ℕ → ℝ)
    (Cin k1 k2 hD : ℕ) (hk1 : 0 < k1) (hk2 : 0 < k2)
    (x h : ℕ → ℕ → ℕ → ℝ) (c : ℕ) :
    conv_mingru_sequential w b Cin k1 k2 hD 1 1 x h c 0 0 =
      mingru_sequential (fun a d => w a d ((k1 - 1) / 2) ((k2 - 1) / 2)) b
        Cin hD (fun d => x d 0 0) (fun d => h d 0 0) c := by
  unfold conv_mingru_sequential mingru_sequential
  simp only [conv2d_same_1x1 w b Cin k1 k2 hk1 hk2 x]

lemma conv_mingru_parallel_1x1 (w : ℕ → ℕ → ℕ → ℕ → ℝ) (b : ℕ → ℝ)
    (Cin k1 k2 hD : ℕ) (hk1 : 0 < k1) (hk2 : 0 < k2)
    (x : ℕ → ℕ → ℕ → ℕ → ℝ) (h : ℕ → ℕ → ℕ → ℝ) (t c : ℕ) :
    conv_mingru_parallel w b Cin k1 k2 hD 1 1 x h t c 0 0 =
      mingru_parallel (fun a d => w a d ((k1 - 1) / 2) ((k2 - 1) / 2)) b
        Cin hD (fun s d => x s d 0 0) (fun d => h d 0 0) t c := by
  unfold conv_mingru_parallel mingru_parallel
  congr 1
  · funext s
    rw [conv2d_same_1x1 w b Cin k1 k2 hk1 hk2 (x s)]
  · funext s
    cases s with
    | zero => rfl
    | succ u =>
        simp only [conv2d_same_1x1 w b Cin k1 k2 hk1 hk2 (x u)]

lemma getD_range_map {α : Type} (f : ℕ → α) (S t : ℕ) (d : α) :
    ((List.range S).map f).getD t d = if t < S then f t else d := by
  by_cases ht : t < S
  · rw [if_pos ht, List.getD_eq_getElem?_getD, List.getElem?_map,
      List.getElem?_range ht]
    rfl
  · rw [if_neg ht, List.getD_eq_getElem?_getD, List.getElem?_eq_none]
    · rfl
    · rw [List.length_map, List.length_range]
      omega

/-- C9: with spatial height = width = 1 (and a nonempty kernel), the spatial
evaluation `conv_mingru` returns, at every time slot and channel, the same
value as the flat evaluation `mingru` on the flattened channel tensors, with
the convolution kernel flattened to its centre tap as the linear weight. -/
theorem spatial_flat_consistency (w : ℕ → ℕ → ℕ → ℕ → ℝ) (b : ℕ → ℝ)
    (Cin k1 k2 hD S : ℕ) (hk1 : 0 < k1) (hk2 : 0 < k2)
    (x : ℕ → ℕ → ℕ → ℕ → ℝ) (h0 : ℕ → ℕ → ℕ → ℝ) :
    ∀ t c,
      ((conv_mingru w b Cin k1 k2 hD 1 1 S x h0).getD t
          (fun _ _ _ => 0)) c 0 0 =
        ((mingru (fun a d => w a d ((k1 - 1) / 2) ((k2 - 1) / 2)) b Cin hD S
            (fun s d => x s d 0 0) (fun d => h0 d 0 0)).getD t
          (fun _ => 0)) c := by
  intro t c
  unfold conv_mingru mingru
  by_cases hS : S = 1
  · rw [if_pos hS, if_pos hS]
    cases t with
    | zero =>
        show conv_mingru_sequential w b Cin k1 k2 hD 1 1 (x 0) h0 c 0 0 = _
        rw [conv_mingru_sequential_1x1 w b Cin k1 k2 hD hk1 hk2 (x 0) h0 c]
        rfl
    | succ u => rfl
  · rw [if_neg hS, if_neg hS, getD_range_map, getD_range_map]
    by_cases ht : t < S
    · rw [if_pos ht, if_pos ht]
      exact conv_mingru_parallel_1x1 w b Cin k1 k2 hD hk1 hk2 x h0 t c
    · rw [if_neg ht, if_neg ht]

theorem spatial_flat_consistency_witness :
    (0 < 1 ∧ 0 < 1) ∧
      ((conv_mingru (fun _ _ _ _ => 1) (fun _ => 0) 1 1 1 1 1 1 2
          (fun _ _ _ _ => 1) (fun _ _ _ => 1)).getD 0
        (fun _ _ _ => 0)) 0 0 0 =
      ((mingru (fun a d => (fun _ _ _ _ => (1 : ℝ)) a d ((1 - 1) / 2)
            ((1 - 1) / 2)) (fun _ => 0) 1 1 2
          (fun s d => (fun _ _ _ _ => (1 : ℝ)) s d 0 0)
          (fun d => (fun _ _ _ => (1 : ℝ)) d 0 0)).getD 0 (fun _ => 0)) 0 :=
  ⟨⟨Nat.one_pos, Nat.one_pos⟩,
    spatial_flat_consistency (fun _ _ _ _ => 1) (fun _ => 0) 1 1 1 1 2
      Nat.one_pos Nat.one_pos (fun _ _ _ _ => 1) (fun _ _ _ => 1) 0 0⟩

/-- One layer of `modules.MinGRU`: the combined gate/hidden linear transform
(`torch.nn.Linear(ind, outd * 2)`) and the residual alignment transform
(`torch.nn.Linear(ind, outd)` when `ind ≠ outd`, identity otherwise). -/
structure GHLayer where
  weight : ℕ → ℕ → ℝ
  bias : ℕ → ℝ
  inDim : ℕ
  outDim : ℕ
  alignWeight : ℕ → ℕ → ℝ
  alignBias : ℕ → ℝ

/-- Per-layer evaluation `mF.mingru(inp, h_prev, weight, bias)` read as a
(time, channel)-indexed function. -/
noncomputable def layerOut (L : GHLayer) (S : ℕ) (inp : ℕ → ℕ → ℝ)
    (h : ℕ → ℝ) : ℕ → ℕ → ℝ :=
  fun t c => ((mingru L.weight L.bias L.inDim L.outDim S inp h).getD t
    (fun _ => 0)) c

/-- Residual alignment: identity when the layer preserves the width,
otherwise the align linear layer (`modules.py`, lines 47-51). -/
noncomputable def alignOut (L : GHLayer) (inp : ℕ → ℕ → ℝ) : ℕ → ℕ → ℝ :=
  if L.inDim = L.outDim then inp
  else fun t c => linRow L.alignWeight L.alignBias L.inDim (inp t) c

/-- The layer loop of `modules.MinGRU.forward` (lines 89-117): per layer,
evaluate the recurrence, record the final hidden state (taken from the raw
layer output, before residual/dropout), optionally add the aligned skip
connection, optionally multiply by the dropout mask (`mask` stands for the
`torch.bernoulli` draw) except on the last layer, and feed the result to the
next layer.  Returns the last layer's output and the per-layer final hidden
states. -/
noncomputable def forward_loop (residual : Bool) (dropout : ℝ)
    (mask : ℕ → ℕ → ℕ → ℝ) (S numLayers : ℕ) (hs : List (ℕ → ℝ)) :
    List GHLayer → ℕ → (ℕ → ℕ → ℝ) → (ℕ → ℕ → ℝ) × List (ℕ → ℝ)
  | [], _, inp => (inp, [])
  | L :: rest, lidx, inp =>
      let out0 := layerOut L S inp (hs.getD lidx (fun _ => 0))
      let hlast := fun c => out0 (S - 1) c
      let out1 :=
        if residual then fun t c => out0 t c + alignOut L inp t c else out0
      let out2 :=
        if lidx < numLayers - 1 ∧ 0 < dropout then
          fun t c => out1 t c * mask lidx t c
        else out1
      let res :=
        forward_loop residual dropout mask S numLayers hs rest (lidx + 1) out2
      (res.1, hlast :: res.2)

/-- Embedding of `modules.MinGRU.init_hidden_state` (lines 120-124): one state per layer,
every element `g 0`. -/
noncomputable def init_hidden_state (layers : List GHLayer) :
    List (ℕ → ℝ) :=
  layers.map (fun _ => fun _ => g 0)

/-- Embedding of `modules.MinGRU.forward` (lines 59-118): when the hidden-state argument
is omitted (`none`), `init_hidden_state` is allocated and the layer loop
runs on it; otherwise the supplied list is used. -/
noncomputable def MinGRU_forward (layers : List GHLayer) (residual : Bool)
    (dropout : ℝ) (mask : ℕ → ℕ → ℕ → ℝ) (S : ℕ) (x : ℕ → ℕ → ℝ)
    (h : Option (List (ℕ → ℝ))) : (ℕ → ℕ → ℝ) × List (ℕ → ℝ) :=
  forward_loop residual dropout mask S layers.length
    (match h with
      | none => init_hidden_state layers
      | some hs => hs)
    layers 0 x

/-- C10: when the hidden-state argument is omitted, `MinGRU.forward`
allocates one initial state per layer whose every element is
`g 0 = 0.5 > 0`, and evaluates exactly as if that list had been passed
explicitly. -/
theorem forward_default_hidden (layers : List GHLayer) (residual : Bool)
    (dropout : ℝ) (mask : ℕ → ℕ → ℕ → ℝ) (S : ℕ) (x : ℕ → ℕ → ℝ) :
    MinGRU_forward layers residual dropout mask S x none =
        MinGRU_forward layers residual dropout mask S x
          (some (init_hidden_state layers)) ∧
      (init_hidden_state layers).length = layers.length ∧
      ∀ hv ∈ init_hidden_state layers, ∀ c, hv c = 0.5 ∧ 0 < hv c := by
  refine ⟨rfl, List.length_map _ _, ?_⟩
  intro hv hmem c
  unfold init_hidden_state at hmem
  rw [List.mem_map] at hmem
  obtain ⟨_, _, rfl⟩ := hmem
  constructor
  · show g 0 = 0.5
    unfold g
    rw [if_pos le_rfl]
    norm_num
  · exact g_pos 0

end MinGru
